import Mathlib

/-!
Verification model of the `allowlist` package (openshift/cfssl).

The package implements IP allowlists: a host-based list `Basic`
(a mutex-protected `map[string]bool` keyed by canonical address
strings), a network-based list `BasicNet` (a mutex-protected slice of
`*net.IPNet`), JSON (un)marshalling of both, a line-oriented dump/load
pair for the host list, and HTTP gating handlers.

Byte slices and Go strings are modelled as `List Char`; `net.IP`
(a byte slice) as `List Nat`.  The Go standard library functions the
package relies on (`net.IP.String`, `net.ParseIP`, `net.ParseCIDR`,
`(*net.IPNet).String`, `(*net.IPNet).Contains`, `strings.Split`,
`strings.TrimSpace`, `strings.Join`, `sort.Strings`) are modelled
faithfully below, with one simplification that no claim depends on:
the IPv6 textual form is modelled as eight colon-separated lowercase
hex groups without RFC 5952 zero-run compression (`::`), and the IPv6
parser accepts exactly that shape.  The IPv4 dotted-quad form, which
every concrete address in the specification uses, is modelled exactly.
-/

/-- A Go string / byte slice, as a list of characters. -/
abbrev Str : Type := List Char

/-- The double-quote byte `'"'` (code 34). -/
def qc : Char := Char.ofNat 34

/-- The newline byte (code 10). -/
def nlc : Char := Char.ofNat 10

/-- ASCII model of the white-space class used by `strings.TrimSpace`. -/
def isSpace (ch : Char) : Bool := ch.toNat = 32 || (9 ≤ ch.toNat && ch.toNat ≤ 13)

/-- Model of `strings.TrimSpace` (ASCII white space). -/
def trimSpace (s : Str) : Str :=
  ((s.dropWhile isSpace).reverse.dropWhile isSpace).reverse

/-- Model of `strings.Split s sep` for a one-byte separator `c`.
Like Go's `Split`, the empty string yields `[[]]`, and separators at
the ends yield empty fields. -/
def splitOnChar (c : Char) : Str → List Str
  | [] => [[]]
  | x :: xs =>
    let r := splitOnChar c xs
    if x = c then [] :: r
    else (x :: r.headD []) :: r.tail

/-- Model of `strings.Join parts sep` for a one-byte separator. -/
def joinWith (c : Char) : List Str → Str
  | [] => []
  | [t] => t
  | t :: t2 :: ts => t ++ c :: joinWith c (t2 :: ts)

/-- Boolean string membership in a list of strings (a Go map lookup
returning whether the key is present). -/
def memStr (k : Str) : List Str → Bool
  | [] => false
  | x :: xs => if x = k then true else memStr k xs

/-- Insertion of a key into a Go `map[string]bool` holding `true` at
every present key: `m[k] = true` adds `k` if absent. -/
def mapInsert (l : List Str) (k : Str) : List Str :=
  if memStr k l then l else l ++ [k]

/-- Removal of a key from a Go map: `delete(m, k)`. -/
def delKey (k : Str) : List Str → List Str
  | [] => []
  | x :: xs => if x = k then delKey k xs else x :: delKey k xs

/-- Option-valued map over a list, failing if any element fails. -/
def mapOpt (f : α → Option β) : List α → Option (List β)
  | [] => some []
  | a :: as =>
    match f a with
    | none => none
    | some b => (mapOpt f as).map (b :: ·)

/-! ### Digit strings

Go prints IPv4 octets in decimal and IPv6 groups in lowercase hex,
without leading zeros; its parsers read such digit strings back.
`digitsRev` produces the digits little-endian (fuel-indexed so that
the definition is structural), `valBE` is the big-endian value of a
digit list as computed by Go's `dtoi`/`xtoi` accumulation loops. -/

/-- Little-endian base-`b` digits of `n`, with enough fuel. `n = 0`
yields the single digit `0` (Go prints `"0"`). -/
def digitsRev (b : Nat) : Nat → Nat → List Nat
  | 0, _ => []
  | f + 1, n => if n < b then [n] else n % b :: digitsRev b f (n / b)

/-- Big-endian value of a digit list: the accumulation `a*b + d`
performed by Go's `dtoi` and `xtoi`. -/
def valBE (b : Nat) (ds : List Nat) : Nat := ds.foldl (fun a d => b * a + d) 0

/-- Little-endian value of a digit list. -/
def valLE (b : Nat) : List Nat → Nat
  | [] => 0
  | d :: ds => d + b * valLE b ds

/-- Decimal digit to character, as Go's `'0' + d`. -/
def decDigitChar (d : Nat) : Char := Char.ofNat (48 + d)

/-- Hex digit to character, lowercase, as Go's `hexDigit` table. -/
def hexDigitChar (d : Nat) : Char :=
  if d < 10 then Char.ofNat (48 + d) else Char.ofNat (87 + d)

/-- Character to decimal digit (Go `dtoi` digit test). -/
def charToDec (ch : Char) : Option Nat :=
  if 48 ≤ ch.toNat ∧ ch.toNat ≤ 57 then some (ch.toNat - 48) else none

/-- Character to hex digit (Go `xtoi` digit test: `0-9`, `a-f`, `A-F`). -/
def charToHex (ch : Char) : Option Nat :=
  if 48 ≤ ch.toNat ∧ ch.toNat ≤ 57 then some (ch.toNat - 48)
  else if 97 ≤ ch.toNat ∧ ch.toNat ≤ 102 then some (ch.toNat - 87)
  else if 65 ≤ ch.toNat ∧ ch.toNat ≤ 70 then some (ch.toNat - 55)
  else none

/-- Decimal rendering of a natural number, as Go's `uitoa`. -/
def decStr (n : Nat) : Str := ((digitsRev 10 (n + 1) n).reverse).map decDigitChar

/-- Lowercase hex rendering of a natural number, as Go prints IPv6
groups (no leading zeros). -/
def hexStr (n : Nat) : Str := ((digitsRev 16 (n + 1) n).reverse).map hexDigitChar

/-! ### Addresses: `net.IP` and its canonical string form -/

/-- `net.IP` is a byte slice. -/
abbrev IP : Type := List Nat

/-- Source `validIP` (allowlist.go): an address is valid iff it is 4 or
16 bytes long. -/
def validIP (ip : IP) : Bool := ip.length = 4 || ip.length = 16

/-- Well-formedness of the byte-slice model: every entry is a byte.
Every Go `net.IP` satisfies this by construction of `[]byte`. -/
def ipWF (ip : IP) : Bool := ip.all (fun b => b < 256)

/-- Go's `v4InV6Prefix`: the 12 leading bytes of an IPv4-mapped IPv6
address. -/
def v4InV6 : List Nat := [0, 0, 0, 0, 0, 0, 0, 0, 0, 0, 255, 255]

/-- Model of `net.IP.To4`: a 4-byte address is returned as is, a
16-byte IPv4-mapped address is shortened to its last 4 bytes. -/
def to4 (ip : IP) : Option (List Nat) :=
  if ip.length = 4 then some ip
  else if ip.length = 16 ∧ ip.take 12 = v4InV6 then some (ip.drop 12)
  else none

/-- Pair up bytes into 16-bit IPv6 groups. -/
def group2 : List Nat → List Nat
  | a :: b :: rest => (a * 256 + b) :: group2 rest
  | _ => []

/-- Undo `group2`: split each 16-bit group back into two bytes. -/
def ungroup2 : List Nat → List Nat
  | [] => []
  | g :: gs => g / 256 :: g % 256 :: ungroup2 gs

/-- The string `"<nil>"`. -/
def nilStr : Str := ['<', 'n', 'i', 'l', '>']

/-- Two lowercase hex digits of a byte, as Go's `hexString` /
`IPMask.String` print bytes. -/
def byteHex (b : Nat) : Str := [hexDigitChar (b / 16), hexDigitChar (b % 16)]

/-- Hex dump of a byte slice (Go `hexString`). -/
def bytesHex (l : List Nat) : Str := (l.map byteHex).flatten

/-- Dotted-quad rendering of four octets. -/
def dqStr (a b c d : Nat) : Str := joinWith '.' [decStr a, decStr b, decStr c, decStr d]

/-- Model of `net.IP.String`: `"<nil>"` for the empty slice; dotted
quad when `To4` applies; eight colon-joined lowercase hex groups for
other 16-byte addresses (zero-run compression omitted, see the header
comment); `'?'`-prefixed hex dump otherwise. -/
def ipString (ip : IP) : Str :=
  if ip = [] then nilStr
  else
    match to4 ip with
    | some (a :: b :: c :: d :: []) => dqStr a b c d
    | some _ => '?' :: bytesHex ip
    | none =>
      if ip.length = 16 then joinWith ':' ((group2 ip).map hexStr)
      else '?' :: bytesHex ip

/-- First separator scan of `net.ParseIP`: Go dispatches on whichever
of `'.'` or `':'` occurs first; `some true` means IPv4. -/
def v4orv6 : Str → Option Bool
  | [] => none
  | ch :: s => if ch = '.' then some true else if ch = ':' then some false else v4orv6 s

/-- One dotted-quad field: a non-empty decimal digit string whose value
is at most 255 (Go's `dtoi` plus the `> 0xFF` rejection; the post-1.17
leading-zero rejection is not modelled — no canonical string has
leading zeros). -/
def parseDecByte (s : Str) : Option Nat :=
  match s with
  | [] => none
  | _ :: _ =>
    match mapOpt charToDec s with
    | none => none
    | some ds => if valBE 10 ds ≤ 255 then some (valBE 10 ds) else none

/-- One IPv6 group: a non-empty hex digit string whose value is at most
`0xFFFF` (Go's `xtoi` accumulation with the `> 0xFFFF` rejection). -/
def parseHexGroup (s : Str) : Option Nat :=
  match s with
  | [] => none
  | _ :: _ =>
    match mapOpt charToHex s with
    | none => none
    | some ds => if valBE 16 ds ≤ 65535 then some (valBE 16 ds) else none

/-- Dotted-quad parser: exactly four octet fields. Yields 4 bytes. -/
def parseV4 (s : Str) : Option (List Nat) :=
  match mapOpt parseDecByte (splitOnChar '.' s) with
  | some (a :: b :: c :: d :: []) => some [a, b, c, d]
  | _ => none

/-- IPv6 parser for the modelled textual form: exactly eight hex
groups. Yields 16 bytes. -/
def parseV6 (s : Str) : Option (List Nat) :=
  match mapOpt parseHexGroup (splitOnChar ':' s) with
  | none => none
  | some gs => if gs.length = 8 then some (ungroup2 gs) else none

/-- Model of `net.ParseIP`: dotted quads become 16-byte IPv4-mapped
addresses (as in Go), IPv6 strings become 16-byte addresses, anything
else is `none` (Go's nil). -/
def parseIP (s : Str) : Option IP :=
  match v4orv6 s with
  | some true => (parseV4 s).map (fun bs => v4InV6 ++ bs)
  | some false => parseV6 s
  | none => none

/-- The 16-byte form `ParseIP` returns for the canonical string of a
valid address: 4-byte and IPv4-mapped addresses normalise to the
mapped 16-byte form, other 16-byte addresses are unchanged. -/
def canon16 (ip : IP) : IP :=
  match to4 ip with
  | some b4 => v4InV6 ++ b4
  | none => ip

/-! ### The host list `Basic`

`Basic` holds `allowlist map[string]bool` (plus a mutex, which has no
sequential content).  The map is modelled as the list of present keys;
every stored value is `true`.  A `none` map models Go's nil map, which
a failed `UnmarshalJSON` leaves behind. -/

/-- Outcome of a Go method that can return an error or panic; the
state the receiver is left in is carried alongside. -/
inductive GoRes (σ : Type) where
  | panicked : GoRes σ
  | errored : σ → GoRes σ
  | ok : σ → GoRes σ
deriving DecidableEq

/-- Source `Basic.Permitted` on a non-nil map: reject invalid
addresses, then look the canonical string up in the map. -/
def basicPermitted (l : List Str) (ip : IP) : Bool :=
  validIP ip && memStr (ipString ip) l

/-- Source `Basic.Permitted` including the nil-map state (a lookup in
a nil Go map yields `false`). -/
def basicPermittedO : Option (List Str) → IP → Bool
  | none, _ => false
  | some l, ip => basicPermitted l ip

/-- Source `Basic.Add`: no-op on invalid addresses, otherwise insert
the canonical string.  (On the nil-map state Go would panic; `Add` is
only applied to constructor-built lists here.) -/
def basicAdd (l : List Str) (ip : IP) : List Str :=
  if validIP ip then mapInsert l (ipString ip) else l

/-- Source `Basic.Remove`: no-op on invalid addresses, otherwise
delete the canonical string. -/
def basicRemove (l : List Str) (ip : IP) : List Str :=
  if validIP ip then delKey (ipString ip) l else l

/-- Source `NewBasic` followed by a sequence of `Add` calls. -/
def buildBasic (ips : List IP) : List Str := ips.foldl basicAdd []

/-- Source `Basic.MarshalJSON`: the keys joined with commas, wrapped
in double quotes.  (Go map iteration order is unspecified; the model
uses insertion order, one admissible iteration order.) -/
def basicMarshalJSON (l : List Str) : Str := qc :: (joinWith ',' l ++ [qc])

/-- The token loop of `Basic.UnmarshalJSON`: starting from the freshly
reset empty map, trim each comma-separated token, skip empty tokens,
fail (leaving the map nil) on tokens `net.ParseIP` rejects, and store
accepted tokens as keys. -/
def basicUMGo : List Str → List Str → GoRes (Option (List Str))
  | [], acc => .ok (some acc)
  | t :: ts, acc =>
    let a := trimSpace t
    if a = [] then basicUMGo ts acc
    else
      match parseIP a with
      | none => .errored none
      | some _ => basicUMGo ts (mapInsert acc a)

/-- Source `Basic.UnmarshalJSON`: `in[0]` panics on empty input;
missing opening or closing quote is an error that leaves the receiver
untouched; the one-byte input `"` panics on the slice `in[1:0]`;
otherwise the quoted contents are trimmed, split on commas and fed to
the token loop. -/
def basicUnmarshalJSON (st : Option (List Str)) (inp : Str) : GoRes (Option (List Str)) :=
  match inp with
  | [] => .panicked
  | c :: rest =>
    if c = qc ∧ (c :: rest).getLast? = some qc then
      if rest = [] then .panicked
      else basicUMGo (splitOnChar ',' (trimSpace rest.dropLast)) []
    else .errored st

/-- Go `string` ordering (bytewise lexicographic), for `sort.Strings`. -/
def lexLe : Str → Str → Bool
  | [], _ => true
  | _ :: _, [] => false
  | x :: xs, y :: ys =>
    if x.toNat < y.toNat then true
    else if y.toNat < x.toNat then false
    else lexLe xs ys

/-- Ordered insertion for `sortStrs`. -/
def sortIns (x : Str) : List Str → List Str
  | [] => [x]
  | y :: ys => if lexLe x y then x :: y :: ys else y :: sortIns x ys

/-- Model of `sort.Strings` (insertion sort; only the multiset of
elements matters to the properties proved here). -/
def sortStrs : List Str → List Str
  | [] => []
  | x :: xs => sortIns x (sortStrs xs)

/-- Source `DumpBasic`: the keys, sorted, joined with newlines. -/
def dumpBasic (l : List Str) : Str := joinWith nlc (sortStrs l)

/-- The line loop of `LoadBasic`: parse every line with `net.ParseIP`
(failing the whole load if any line is rejected) and `Add` the parsed
address to the accumulating list. -/
def loadGo : List Str → List Str → Option (List Str)
  | [], acc => some acc
  | t :: ts, acc =>
    match parseIP t with
    | none => none
    | some ip => loadGo ts (basicAdd acc ip)

/-- Source `LoadBasic`: split the input on newlines and run the line
loop on a fresh list. -/
def loadBasic (inp : Str) : Option (List Str) := loadGo (splitOnChar nlc inp) []

/-! ### The network list `BasicNet`

`BasicNet` holds `allowlist []*net.IPNet`.  Entries are modelled as
`Option IPNet`: `none` is a nil pointer, which `UnmarshalJSON` leaves
behind for empty tokens. -/

/-- `net.IPNet`: a network address together with its mask. -/
structure IPNet where
  ip : IP
  mask : List Nat
deriving DecidableEq

/-- Go's `networkNumberAndMask`: normalise the network address via
`To4` (requiring 4 or 16 bytes) and match the mask length against it,
shortening a 16-byte mask against a 4-byte address. -/
def networkNumberAndMask (n : IPNet) : Option (List Nat × List Nat) :=
  let ipo :=
    match to4 n.ip with
    | some x => some x
    | none => if n.ip.length = 16 then some n.ip else none
  match ipo with
  | none => none
  | some nn =>
    if n.mask.length = 4 then
      if nn.length ≠ 4 then none else some (nn, n.mask)
    else if n.mask.length = 16 then
      if nn.length = 4 then some (nn, n.mask.drop 12) else some (nn, n.mask)
    else none

/-- Bytewise masked comparison of the loop in `IPNet.Contains`:
`nn[i] & m[i] == ip[i] & m[i]` for every index. -/
def allMasked : List Nat → List Nat → List Nat → Bool
  | n :: ns, m :: ms, i :: is => (Nat.land n m = Nat.land i m : Bool) && allMasked ns ms is
  | _, _, _ => true

/-- Model of `(*net.IPNet).Contains` on a non-nil receiver: normalise
both sides to 4 bytes when possible, require equal lengths, then
compare under the mask. -/
def netContains (n : IPNet) (ip : IP) : Bool :=
  match networkNumberAndMask n with
  | none => false
  | some (nn, m) =>
    let ip2 := (to4 ip).getD ip
    ip2.length = nn.length && allMasked nn m ip2

/-- Prefix-length of one mask byte, as the bit loop of Go's
`simpleMaskLength`: the byte must be ones followed by zeros. -/
def byteOnes (b : Nat) : Option Nat :=
  if b = 255 then some 8
  else if b = 254 then some 7
  else if b = 252 then some 6
  else if b = 248 then some 5
  else if b = 240 then some 4
  else if b = 224 then some 3
  else if b = 192 then some 2
  else if b = 128 then some 1
  else if b = 0 then some 0
  else none

/-- Go's `simpleMaskLength`: number of leading one bits of a canonical
CIDR mask, `none` for a non-contiguous mask. -/
def maskOnes : List Nat → Option Nat
  | [] => some 0
  | b :: bs =>
    match byteOnes b with
    | none => none
    | some 8 => (maskOnes bs).map (8 + ·)
    | some k => if bs.all (· = 0) then some k else none

/-- Model of `(*net.IPNet).String` on a non-nil receiver: canonical
`address/ones` when the mask is contiguous, `address/hex-mask`
otherwise, `"<nil>"` when `networkNumberAndMask` fails. -/
def ipnetString (n : IPNet) : Str :=
  match networkNumberAndMask n with
  | none => nilStr
  | some (nn, m) =>
    match maskOnes m with
    | some l => ipString nn ++ '/' :: decStr l
    | none => ipString nn ++ '/' :: bytesHex m

/-- Canonical string of a stored entry; a nil `*net.IPNet` prints as
`"<nil>"` (the `String` method checks its receiver for nil). -/
def entryString : Option IPNet → Str
  | none => nilStr
  | some n => ipnetString n

/-- Source `BasicNet.Add`: nil networks are ignored, everything else
is appended (no duplicate or overlap detection). -/
def netAdd (n : Option IPNet) (l : List (Option IPNet)) : List (Option IPNet) :=
  match n with
  | none => l
  | some x => l ++ [some x]

/-- The scan-and-erase of `BasicNet.Remove`: drop the first entry
whose canonical string equals the argument's, keep everything else. -/
def removeFirst (s : Str) : List (Option IPNet) → List (Option IPNet)
  | [] => []
  | e :: es => if entryString e = s then es else e :: removeFirst s es

/-- Source `BasicNet.Remove`: nil argument is ignored; otherwise the
first entry with an equal canonical string is removed (no match is a
silent no-op). -/
def netRemove (n : Option IPNet) (l : List (Option IPNet)) : List (Option IPNet) :=
  match n with
  | none => l
  | some n0 => removeFirst (ipnetString n0) l

/-- The scan loop of `BasicNet.Permitted`; `none` models the panic of
calling `Contains` on a nil entry (its receiver is dereferenced). -/
def netPermGo (ip : IP) : List (Option IPNet) → Option Bool
  | [] => some false
  | none :: _ => none
  | some n :: es => if netContains n ip then some true else netPermGo ip es

/-- Source `BasicNet.Permitted`: invalid addresses are rejected before
the scan; otherwise the first containing network wins. -/
def netPermitted (l : List (Option IPNet)) (ip : IP) : Option Bool :=
  if validIP ip then netPermGo ip l else some false

/-- Split a string at the first occurrence of `c` (Go `byteIndex`
plus slicing, as `ParseCIDR` splits `addr/mask`). -/
def breakAt (c : Char) : Str → Option (Str × Str)
  | [] => none
  | x :: xs =>
    if x = c then some ([], xs)
    else (breakAt c xs).map (fun p => (x :: p.1, p.2))

/-- Go `CIDRMask ones (8*nbytes)`: leading one bits, then zeros. -/
def cidrMask (ones : Nat) : Nat → List Nat
  | 0 => []
  | k + 1 => (if 8 ≤ ones then 255 else 256 - 2 ^ (8 - ones)) :: cidrMask (ones - 8) k

/-- Go `IP.Mask`: adjust lengths as the source does, then AND the
address with the mask bytewise (`[]`, Go nil, on length mismatch). -/
def maskApply (ip mask : List Nat) : IP :=
  let mask2 := if mask.length = 16 ∧ ip.length = 4 ∧ (mask.take 12).all (· = 255) then mask.drop 12 else mask
  let ip2 := if mask2.length = 4 ∧ ip.length = 16 ∧ ip.take 12 = v4InV6 then ip.drop 12 else ip
  if ip2.length = mask2.length then List.zipWith Nat.land ip2 mask2 else []

/-- Decimal number for the `/ones` part (Go `dtoi`: non-empty, all
digits consumed). -/
def parseDecNat (s : Str) : Option Nat :=
  match s with
  | [] => none
  | _ :: _ => (mapOpt charToDec s).map (valBE 10)

/-- Model of `net.ParseCIDR`, returning the `*net.IPNet` component:
split at the first `/`, parse the address (4 bytes for dotted quads,
16 otherwise), parse the prefix length against the address width, and
build the masked network. -/
def parseCIDR (s : Str) : Option IPNet :=
  match breakAt '/' s with
  | none => none
  | some (a, mstr) =>
    match v4orv6 a with
    | some true =>
      match parseV4 a, parseDecNat mstr with
      | some bs, some n => if n ≤ 32 then some ⟨maskApply bs (cidrMask n 4), cidrMask n 4⟩ else none
      | _, _ => none
    | some false =>
      match parseV6 a, parseDecNat mstr with
      | some bs, some n => if n ≤ 128 then some ⟨maskApply bs (cidrMask n 16), cidrMask n 16⟩ else none
      | _, _ => none
    | none => none

/-- The token loop of `BasicNet.UnmarshalJSON`: the result slice is
pre-sized to the token count, so a skipped empty token leaves a nil
entry behind; a `ParseCIDR` failure aborts with the slice set to nil
(modelled as `[]`). -/
def netUMGo : List Str → List (Option IPNet) → GoRes (List (Option IPNet))
  | [], acc => .ok acc.reverse
  | t :: ts, acc =>
    let a := trimSpace t
    if a = [] then netUMGo ts (none :: acc)
    else
      match parseCIDR a with
      | none => .errored []
      | some n => netUMGo ts (some n :: acc)

/-- Source `BasicNet.UnmarshalJSON`: same quote handling as the host
list, then the token loop. -/
def netUnmarshalJSON (st : List (Option IPNet)) (inp : Str) : GoRes (List (Option IPNet)) :=
  match inp with
  | [] => .panicked
  | c :: rest =>
    if c = qc ∧ (c :: rest).getLast? = some qc then
      if rest = [] then .panicked
      else netUMGo (splitOnChar ',' (trimSpace rest.dropLast)) []
    else .errored st

/-- Source `BasicNet.MarshalJSON`: the canonical strings of the
entries joined with commas, wrapped in double quotes.  (Unlike every
other method of both lists, the source takes no lock here; see the
locking model below.) -/
def netMarshalJSON (l : List (Option IPNet)) : Str :=
  qc :: (joinWith ',' (l.map entryString) ++ [qc])

/-! ### The gating HTTP wrapper

`Handler.ServeHTTP` and `HandlerFunc.ServeHTTP` share the same logic:
look the caller's address up (an external collaborator modelled as an
`Option IP` already computed), answer 500 on lookup failure, run the
permitted handler on membership, the denied handler if configured
otherwise, else answer 401.  The two delegates and the response
writer have no sequential content; only which outcome fires is
modelled. -/

/-- The four possible outcomes of one gated request. -/
inductive GateOutcome where
  | internalError : GateOutcome
  | allowInvoked : GateOutcome
  | denyInvoked : GateOutcome
  | unauthorized : GateOutcome
deriving DecidableEq

/-- Source `Handler.ServeHTTP` / `HandlerFunc.ServeHTTP`: `lookupRes`
is the result of `HTTPRequestLookup` (`none` = error), `permitted` the
ACL's membership test, `hasDeny` whether a denied delegate was
configured. -/
def serveHTTP (lookupRes : Option IP) (permitted : IP → Bool) (hasDeny : Bool) : GateOutcome :=
  match lookupRes with
  | none => .internalError
  | some ip =>
    if permitted ip then .allowInvoked
    else if hasDeny then .denyInvoked
    else .unauthorized

/-! ### Locking discipline

Each list method is abstracted to its sequence of lock events and
entry-collection accesses, transcribed from the source.  `wellLocked`
holds when every access to the collection happens while the list's
mutex is held. -/

/-- One event of a list method: acquire the mutex, release it, or
touch the entry collection. -/
inductive LockEv where
  | acq : LockEv
  | rel : LockEv
  | access : LockEv
deriving DecidableEq

/-- Scan of an event trace tracking mutex depth; every collection
access must happen at positive depth. -/
def lockedFrom : Nat → List LockEv → Bool
  | _, [] => true
  | d, .acq :: es => lockedFrom (d + 1) es
  | d, .rel :: es => lockedFrom (d - 1) es
  | d, .access :: es => (0 < d : Bool) && lockedFrom d es

/-- A trace is well locked when each collection access is under the
lock. -/
def wellLocked (es : List LockEv) : Bool := lockedFrom 0 es

/-- `Basic.Permitted`: early return on invalid input, else lock, read
the map, unlock. -/
def basicPermittedTrace (valid : Bool) : List LockEv :=
  if valid then [.acq, .access, .rel] else []

/-- `Basic.Add`: early return on invalid input, else locked write. -/
def basicAddTrace (valid : Bool) : List LockEv :=
  if valid then [.acq, .access, .rel] else []

/-- `Basic.Remove`: early return on invalid input, else locked
delete. -/
def basicRemoveTrace (valid : Bool) : List LockEv :=
  if valid then [.acq, .access, .rel] else []

/-- `Basic.MarshalJSON`: locked iteration over the map. -/
def basicMarshalTrace : List LockEv := [.acq, .access, .rel]

/-- `Basic.UnmarshalJSON`: early error without touching the map when
the quotes are missing, else locked replacement of the map. -/
def basicUnmarshalTrace (quoteOk : Bool) : List LockEv :=
  if quoteOk then [.acq, .access, .rel] else []

/-- `DumpBasic`: locked iteration over the map. -/
def dumpBasicTrace : List LockEv := [.acq, .access, .rel]

/-- `BasicNet.Permitted`: early return on invalid input, else locked
scan. -/
def netPermittedTrace (valid : Bool) : List LockEv :=
  if valid then [.acq, .access, .rel] else []

/-- `BasicNet.Add`: early return on nil, else locked append. -/
def netAddTrace (isNil : Bool) : List LockEv :=
  if isNil then [] else [.acq, .access, .rel]

/-- `BasicNet.Remove`: early return on nil, else locked scan and
erase. -/
def netRemoveTrace (isNil : Bool) : List LockEv :=
  if isNil then [] else [.acq, .access, .rel]

/-- `BasicNet.UnmarshalJSON`: early error without touching the slice
when the quotes are missing, else locked replacement. -/
def netUnmarshalTrace (quoteOk : Bool) : List LockEv :=
  if quoteOk then [.acq, .access, .rel] else []

/-- `BasicNet.MarshalJSON`: the source iterates over `wl.allowlist`
WITHOUT acquiring `wl.lock` — its trace is a bare access. -/
def netMarshalTrace : List LockEv := [.access]

/-! ### Basic lemmas about the map model -/

theorem memStr_iff (k : Str) : ∀ l : List Str, memStr k l = true ↔ k ∈ l := by
  intro l
  induction l with
  | nil => simp [memStr]
  | cons x xs ih =>
    by_cases h : x = k
    · subst h; simp [memStr]
    · simp [memStr, h, ih, Ne.symm h]

theorem bool_of_iff {a b : Bool} (h : a = true ↔ b = true) : a = b := by
  cases a <;> cases b <;> simp_all

theorem memStr_insert_self (l : List Str) (k : Str) : memStr k (mapInsert l k) = true := by
  unfold mapInsert
  by_cases h : memStr k l = true
  · rw [if_pos h]; exact h
  · rw [if_neg h, memStr_iff]; simp

theorem mem_mapInsert (l : List Str) (k x : Str) :
    x ∈ mapInsert l k ↔ x ∈ l ∨ x = k := by
  unfold mapInsert
  by_cases h : memStr k l = true
  · rw [if_pos h, memStr_iff] at *
    constructor
    · exact Or.inl
    · rintro (hx | rfl)
      · exact hx
      · exact h
  · rw [if_neg h]
    simp

theorem delKey_not_mem (k : Str) : ∀ l : List Str, memStr k (delKey k l) = false := by
  intro l
  induction l with
  | nil => rfl
  | cons x xs ih =>
    unfold delKey
    by_cases h : x = k
    · simp [h, ih]
    · simp [h, memStr, ih]

theorem delKey_idem (k : Str) : ∀ l : List Str, delKey k (delKey k l) = delKey k l := by
  intro l
  induction l with
  | nil => rfl
  | cons x xs ih =>
    by_cases h : x = k
    · have e : delKey k (x :: xs) = delKey k xs := by simp [delKey, h]
      rw [e, ih]
    · have e : delKey k (x :: xs) = x :: delKey k xs := by simp [delKey, h]
      have e2 : delKey k (x :: delKey k xs) = x :: delKey k (delKey k xs) := by
        simp [delKey, h]
      rw [e, e2, ih]

/-! ### Claims about mutation on invalid and valid addresses -/

/-- C2: an address of invalid byte length is never permitted, in any
state of either list variant; `Add` and `Remove` with the malformed
value (a nil network on the network list) leave the entry collection
unchanged and nothing errors or panics (the network membership test
returns an actual `false`, it does not panic). -/
theorem invalid_address_absorbed (ip : IP) (h : validIP ip = false) :
    (∀ l : List Str, basicPermitted l ip = false ∧ basicAdd l ip = l ∧ basicRemove l ip = l)
    ∧ (∀ nl : List (Option IPNet), netPermitted nl ip = some false)
    ∧ (∀ nl : List (Option IPNet), netAdd none nl = nl ∧ netRemove none nl = nl) := by
  refine ⟨fun l => ⟨?_, ?_, ?_⟩, fun nl => ?_, fun nl => ⟨rfl, rfl⟩⟩
  · simp [basicPermitted, h]
  · simp [basicAdd, h]
  · simp [basicRemove, h]
  · simp [netPermitted, h]

/-- C2 witness: the 3-byte value `[1, 2, 3]` is invalid and absorbed. -/
theorem invalid_address_absorbed_witness :
    validIP [1, 2, 3] = false ∧ basicPermitted [] [1, 2, 3] = false :=
  ⟨by decide, (invalid_address_absorbed [1, 2, 3] (by decide)).1 [] |>.1⟩

/-- C3: on the host list, a valid address is permitted immediately
after `Add`, and no longer permitted after a subsequent `Remove`. -/
theorem add_remove_permitted (l : List Str) (ip : IP) (h : validIP ip = true) :
    basicPermitted (basicAdd l ip) ip = true
    ∧ basicPermitted (basicRemove (basicAdd l ip) ip) ip = false := by
  constructor
  · simp [basicPermitted, basicAdd, h, memStr_insert_self]
  · simp [basicPermitted, basicRemove, basicAdd, h, delKey_not_mem]

/-- C3 witness: `127.0.0.1` on the empty list. -/
theorem add_remove_permitted_witness :
    validIP [127, 0, 0, 1] = true
    ∧ basicPermitted (basicAdd [] [127, 0, 0, 1]) [127, 0, 0, 1] = true :=
  ⟨by decide, (add_remove_permitted [] [127, 0, 0, 1] (by decide)).1⟩

/-! ### Claims about the gating wrapper and the locking discipline -/

/-- C8: each gated request has exactly one of four outcomes —
internal error exactly when address extraction fails, the permitted
delegate exactly when the membership test passes, the denied delegate
exactly when it fails and one is configured, unauthorized exactly
when it fails and none is. -/
theorem gate_outcomes (lr : Option IP) (p : IP → Bool) (hd : Bool) :
    (serveHTTP lr p hd = .internalError ↔ lr = none)
    ∧ (serveHTTP lr p hd = .allowInvoked ↔ ∃ ip, lr = some ip ∧ p ip = true)
    ∧ (serveHTTP lr p hd = .denyInvoked ↔ ∃ ip, lr = some ip ∧ p ip = false ∧ hd = true)
    ∧ (serveHTTP lr p hd = .unauthorized ↔ ∃ ip, lr = some ip ∧ p ip = false ∧ hd = false) := by
  cases lr with
  | none => simp [serveHTTP]
  | some ip =>
    cases hp : p ip <;> cases hd <;> simp [serveHTTP, hp]

/-- C10: every entry-collection access of both list variants happens
under the per-list mutex — except in `BasicNet.MarshalJSON`, whose
trace reads the collection without ever acquiring the lock. -/
theorem locking_discipline :
    (∀ v, wellLocked (basicPermittedTrace v) = true)
    ∧ (∀ v, wellLocked (basicAddTrace v) = true)
    ∧ (∀ v, wellLocked (basicRemoveTrace v) = true)
    ∧ wellLocked basicMarshalTrace = true
    ∧ (∀ q, wellLocked (basicUnmarshalTrace q) = true)
    ∧ wellLocked dumpBasicTrace = true
    ∧ (∀ v, wellLocked (netPermittedTrace v) = true)
    ∧ (∀ v, wellLocked (netAddTrace v) = true)
    ∧ (∀ v, wellLocked (netRemoveTrace v) = true)
    ∧ (∀ q, wellLocked (netUnmarshalTrace q) = true)
    ∧ wellLocked netMarshalTrace = false := by
  refine ⟨?_, ?_, ?_, by decide, ?_, by decide, ?_, ?_, ?_, ?_, by decide⟩ <;>
    (intro b; cases b <;> decide)

/-! ### Network removal -/

/-- The network `10.0.0.0/8` (as `net.ParseCIDR` produces it: 4-byte
address, 4-byte mask). -/
def R1 : IPNet := ⟨[10, 0, 0, 0], [255, 0, 0, 0]⟩

/-- The network `10.1.0.0/16`. -/
def R2 : IPNet := ⟨[10, 1, 0, 0], [255, 255, 0, 0]⟩

theorem removeFirst_no_match (s : Str) :
    ∀ l : List (Option IPNet), (∀ e ∈ l, entryString e ≠ s) → removeFirst s l = l := by
  intro l
  induction l with
  | nil => intro _; rfl
  | cons e es ih =>
    intro h
    have he : entryString e ≠ s := h e (List.mem_cons_self e es)
    simp only [removeFirst, if_neg he]
    rw [ih (fun x hx => h x (List.mem_cons_of_mem e hx))]

theorem removeFirst_first (s : Str) (e : Option IPNet) (post : List (Option IPNet))
    (he : entryString e = s) :
    ∀ pre : List (Option IPNet), (∀ x ∈ pre, entryString x ≠ s) →
      removeFirst s (pre ++ e :: post) = pre ++ post := by
  intro pre
  induction pre with
  | nil => intro _; simp [removeFirst, he]
  | cons p ps ih =>
    intro h
    have hp : entryString p ≠ s := h p (List.mem_cons_self p ps)
    simp only [List.cons_append, removeFirst, if_neg hp]
    show p :: removeFirst s (ps ++ e :: post) = p :: (ps ++ post)
    rw [ih (fun x hx => h x (List.mem_cons_of_mem p hx))]

/-- C4: network-list removal matches only on exact equality of the
canonical range string — no match is a silent no-op, a match removes
exactly the first equal entry — and, concretely, with `10.0.0.0/8`
and `10.1.0.0/16` both present, removing `10.1.0.0/16` leaves
`10.0.0.0/8`, which still permits `10.1.2.3`, while removing
`10.0.0.0/8` leaves the `10.1.0.0/16` entry in place. -/
theorem netRemove_exact_string (n : IPNet) (l : List (Option IPNet))
    (e : Option IPNet) (pre post : List (Option IPNet))
    (hnone : ∀ x ∈ l, entryString x ≠ ipnetString n)
    (hpre : ∀ x ∈ pre, entryString x ≠ ipnetString n)
    (he : entryString e = ipnetString n) :
    netRemove (some n) l = l
    ∧ netRemove (some n) (pre ++ e :: post) = pre ++ post
    ∧ netRemove (some R2) [some R1, some R2] = [some R1]
    ∧ netPermitted [some R1] [10, 1, 2, 3] = some true
    ∧ netRemove (some R1) [some R1, some R2] = [some R2] := by
  refine ⟨removeFirst_no_match _ l hnone, removeFirst_first _ e post he pre hpre,
    by decide, by decide, by decide⟩

/-- C4 witness: removing `10.0.0.0/8` from a list holding only
`10.1.0.0/16` is a no-op, and the concrete scenario holds. -/
theorem netRemove_exact_string_witness :
    netRemove (some R1) [some R2] = [some R2]
    ∧ netRemove (some R2) [some R1, some R2] = [some R1] := by
  have h := netRemove_exact_string R1 [some R2] (some R1) [] [some R2]
    (by decide) (by decide) (by decide)
  exact ⟨h.1, h.2.2.1⟩

/-- C7 counterexample: with the duplicate state `[10.0.0.0/8,
10.0.0.0/8]` — reachable by two `Add` calls, which detect no
duplicates — a second `Remove` removes the second copy, so it is not
a no-op. -/
theorem remove_not_idempotent_with_duplicates :
    netRemove (some R1) (netRemove (some R1) [some R1, some R1])
      ≠ netRemove (some R1) [some R1, some R1] := by
  decide

/-- C7 (amended): host-list `Remove` is idempotent in every state;
network-list `Remove` is idempotent in every state whose entries have
pairwise-distinct canonical range strings (in particular whenever no
range was added twice) — with duplicate entries the second call
removes the second copy. -/
theorem remove_idempotent
    (nl : List (Option IPNet)) (hing : (nl.map entryString).Nodup) :
    (∀ (l : List Str) (ip : IP), basicRemove (basicRemove l ip) ip = basicRemove l ip)
    ∧ (∀ n : Option IPNet, netRemove n (netRemove n nl) = netRemove n nl) := by
  constructor
  · intro l ip
    by_cases h : validIP ip = true
    · simp [basicRemove, h, delKey_idem]
    · simp [basicRemove, h]
  · intro n
    cases n with
    | none => rfl
    | some n0 =>
      show removeFirst (ipnetString n0) (removeFirst (ipnetString n0) nl)
        = removeFirst (ipnetString n0) nl
      induction nl with
      | nil => rfl
      | cons e es ih =>
        by_cases he : entryString e = ipnetString n0
        · simp only [removeFirst, if_pos he]
          apply removeFirst_no_match
          intro x hx hxs
          simp only [List.map_cons, List.nodup_cons] at hing
          apply hing.1
          rw [he, ← hxs]
          exact List.mem_map_of_mem entryString hx
        · simp only [removeFirst, if_neg he]
          simp only [List.map_cons, List.nodup_cons] at hing
          rw [ih hing.2]

/-- C7 witness: on the duplicate-free state `[10.0.0.0/8,
10.1.0.0/16]` a second removal of `10.0.0.0/8` is a no-op. -/
theorem remove_idempotent_witness :
    netRemove (some R1) (netRemove (some R1) [some R1, some R2])
      = netRemove (some R1) [some R1, some R2] :=
  (remove_idempotent [some R1, some R2] (by decide)).2 (some R1)

/-! ### Deserialization error paths -/

/-- C6 counterexample: on the empty input, `UnmarshalJSON` of both
variants indexes `in[0]` out of range and panics instead of returning
a format error. -/
theorem unmarshal_empty_input_panics :
    basicUnmarshalJSON (some []) [] = .panicked
    ∧ netUnmarshalJSON [] [] = .panicked := by
  exact ⟨rfl, rfl⟩

/-- C6 (amended): for every NON-EMPTY input that is not
quote-delimited (first byte not `"` or last byte not `"`),
`UnmarshalJSON` of both variants returns a format error and leaves
the receiver unchanged; the empty input instead panics on the `in[0]`
index. -/
theorem unmarshal_not_quoted (st : Option (List Str)) (stn : List (Option IPNet))
    (inp : Str) (hne : inp ≠ [])
    (hq : inp.head? ≠ some qc ∨ inp.getLast? ≠ some qc) :
    basicUnmarshalJSON st inp = .errored st
    ∧ netUnmarshalJSON stn inp = .errored stn := by
  match inp with
  | [] => exact absurd rfl hne
  | c :: rest =>
    have hcond : ¬(c = qc ∧ (c :: rest).getLast? = some qc) := by
      rintro ⟨h1, h2⟩
      rcases hq with h | h
      · exact h (by simp [h1])
      · exact h h2
    constructor
    · show (if c = qc ∧ (c :: rest).getLast? = some qc then _ else _) = _
      rw [if_neg hcond]
    · show (if c = qc ∧ (c :: rest).getLast? = some qc then _ else _) = _
      rw [if_neg hcond]

/-- C6 witness: the input `abc` fails with a format error on both
variants and mutates nothing. -/
theorem unmarshal_not_quoted_witness :
    basicUnmarshalJSON (some [['x']]) ['a', 'b', 'c'] = .errored (some [['x']])
    ∧ netUnmarshalJSON [some R1] ['a', 'b', 'c'] = .errored [some R1] :=
  unmarshal_not_quoted (some [['x']]) [some R1] ['a', 'b', 'c'] (by decide)
    (Or.inl (by decide))

/-- C5: deserializing the two-byte input `""` succeeds on both
variants and leaves the host list empty (every address then reads
not-permitted) — but the network list is left holding a single nil
entry, not empty: the pre-sized slice of `BasicNet.UnmarshalJSON`
keeps a nil hole for the skipped empty token, and a subsequent
`Permitted` of a valid address dereferences that nil network and
panics (`none` in the model) instead of returning `false`. -/
theorem deserialize_empty_string :
    basicUnmarshalJSON (some [['x']]) [qc, qc] = .ok (some [])
    ∧ (∀ a : IP, basicPermittedO (some []) a = false)
    ∧ netUnmarshalJSON [some R1] [qc, qc] = .ok [none]
    ∧ netPermitted [none] [10, 0, 0, 1] = none := by
  refine ⟨by decide, ?_, by decide, by decide⟩
  intro a
  simp [basicPermittedO, basicPermitted, memStr]

/-- If the host-list token loop fails, the map it leaves behind is the
nil map. -/
theorem basicUMGo_errored_none :
    ∀ (ts : List Str) (acc : List Str) (st : Option (List Str)),
      basicUMGo ts acc = .errored st → st = none := by
  intro ts
  induction ts with
  | nil => intro acc st h; exact absurd h (by simp [basicUMGo])
  | cons t ts ih =>
    intro acc st h
    unfold basicUMGo at h
    by_cases ha : trimSpace t = []
    · rw [if_pos ha] at h
      exact ih acc st h
    · rw [if_neg ha] at h
      cases hp : parseIP (trimSpace t) with
      | none => rw [hp] at h; cases h; rfl
      | some ip => rw [hp] at h; exact ih _ st h

/-- C9: if host-list `UnmarshalJSON` passes the quote check but fails
on an unparseable token, the previous entries are discarded — the map
is left nil and every address reads not-permitted afterwards,
whatever the list held before the call. -/
theorem failed_unmarshal_empties_list (st st' : Option (List Str)) (inp : Str)
    (hq : inp.head? = some qc) (hl : inp.getLast? = some qc) (hlen : 2 ≤ inp.length)
    (h : basicUnmarshalJSON st inp = .errored st') :
    ∀ a : IP, basicPermittedO st' a = false := by
  match inp, hlen with
  | c :: r :: rest, _ =>
    have hc : c = qc := by simpa using hq
    have hcond : c = qc ∧ (c :: r :: rest).getLast? = some qc := ⟨hc, hl⟩
    have e : basicUnmarshalJSON st (c :: r :: rest)
        = basicUMGo (splitOnChar ',' (trimSpace (r :: rest).dropLast)) [] := by
      show (if c = qc ∧ (c :: r :: rest).getLast? = some qc then _ else _) = _
      rw [if_pos hcond]
      simp
    rw [e] at h
    have := basicUMGo_errored_none _ _ _ h
    subst this
    intro a
    rfl

/-- C9 witness: loading `"z"` over a non-empty list errors and leaves
nothing permitted. -/
theorem failed_unmarshal_empties_list_witness :
    basicUnmarshalJSON (some [['x']]) [qc, 'z', qc] = .errored none
    ∧ (∀ a : IP, basicPermittedO none a = false) :=
  ⟨by decide,
    failed_unmarshal_empties_list (some [['x']]) none [qc, 'z', qc]
      (by decide) (by decide) (by decide) (by decide)⟩

/-! ### Round-trip machinery: digits -/

theorem digitsRev_ne_nil (b : Nat) (f n : Nat) : digitsRev b (f + 1) n ≠ [] := by
  unfold digitsRev
  by_cases h : n < b
  · simp [h]
  · simp [h]

theorem digitsRev_all_lt (b : Nat) (hb : 2 ≤ b) :
    ∀ f n, (digitsRev b f n).all (fun d => d < b) = true := by
  intro f
  induction f with
  | zero => intro n; rfl
  | succ f ih =>
    intro n
    unfold digitsRev
    by_cases h : n < b
    · simp [h]
    · simp only [h, if_false, List.all_cons, Bool.and_eq_true, decide_eq_true_eq]
      exact ⟨Nat.mod_lt n (by omega), ih (n / b)⟩

theorem valLE_digitsRev (b : Nat) (hb : 2 ≤ b) :
    ∀ f n, n < b ^ f → valLE b (digitsRev b f n) = n := by
  intro f
  induction f with
  | zero =>
    intro n hn
    simp only [pow_zero, Nat.lt_one_iff] at hn
    simp [hn, digitsRev, valLE]
  | succ f ih =>
    intro n hn
    unfold digitsRev
    by_cases h : n < b
    · simp [h, valLE]
    · simp only [h, if_false, valLE]
      have hdiv : n / b < b ^ f := by
        rw [Nat.div_lt_iff_lt_mul (by omega)]
        calc n < b ^ (f + 1) := hn
        _ = b ^ f * b := by ring
      rw [ih (n / b) hdiv, Nat.mod_add_div]

theorem valBE_reverse (b : Nat) : ∀ ds : List Nat, valBE b ds.reverse = valLE b ds := by
  intro ds
  induction ds with
  | nil => rfl
  | cons d ds ih =>
    rw [List.reverse_cons]
    unfold valBE at *
    rw [List.foldl_append]
    simp only [List.foldl_cons, List.foldl_nil, valLE]
    rw [ih]
    ring

theorem n_lt_pow_fuel (b n : Nat) (hb : 2 ≤ b) : n < b ^ (n + 1) := by
  calc n < 2 ^ n := Nat.lt_two_pow n
  _ ≤ b ^ n := Nat.pow_le_pow_left hb n
  _ ≤ b ^ (n + 1) := Nat.pow_le_pow_right (by omega) (by omega)

/-! ### Round-trip machinery: characters -/

theorem charToDec_decDigitChar (d : Nat) (h : d < 10) :
    charToDec (decDigitChar d) = some d := by
  have : ∀ x : Fin 10, charToDec (decDigitChar x.val) = some x.val := by decide
  exact this ⟨d, h⟩

theorem charToHex_hexDigitChar (d : Nat) (h : d < 16) :
    charToHex (hexDigitChar d) = some d := by
  have : ∀ x : Fin 16, charToHex (hexDigitChar x.val) = some x.val := by decide
  exact this ⟨d, h⟩

theorem decDigitChar_isHex (d : Nat) (h : d < 10) :
    (charToHex (decDigitChar d)).isSome = true := by
  have : ∀ x : Fin 10, (charToHex (decDigitChar x.val)).isSome = true := by decide
  exact this ⟨d, h⟩

theorem hexDigitChar_isHex (d : Nat) (h : d < 16) :
    (charToHex (hexDigitChar d)).isSome = true := by
  have : ∀ x : Fin 16, (charToHex (hexDigitChar x.val)).isSome = true := by decide
  exact this ⟨d, h⟩

/-- A character of the canonical form: a hex digit, a dot, or a
colon. -/
def goodChar (ch : Char) : Prop := (charToHex ch).isSome = true ∨ ch = '.' ∨ ch = ':'

theorem hexChar_toNat_ge (ch : Char) (h : (charToHex ch).isSome = true) :
    48 ≤ ch.toNat := by
  unfold charToHex at h
  by_cases h1 : 48 ≤ ch.toNat ∧ ch.toNat ≤ 57
  · omega
  · rw [if_neg h1] at h
    by_cases h2 : 97 ≤ ch.toNat ∧ ch.toNat ≤ 102
    · omega
    · rw [if_neg h2] at h
      by_cases h3 : 65 ≤ ch.toNat ∧ ch.toNat ≤ 70
      · omega
      · rw [if_neg h3] at h
        simp at h

theorem goodChar_ne (ch : Char) (hg : goodChar ch) (c0 : Char)
    (h0 : charToHex c0 = none) (h1 : c0 ≠ '.') (h2 : c0 ≠ ':') : ch ≠ c0 := by
  rintro rfl
  rcases hg with h | h | h
  · rw [h0] at h; simp at h
  · exact h1 h
  · exact h2 h

theorem goodChar_not_space (ch : Char) (hg : goodChar ch) : isSpace ch = false := by
  have hn : 46 ≤ ch.toNat := by
    rcases hg with h | h | h
    · have := hexChar_toNat_ge ch h; omega
    · subst h; decide
    · subst h; decide
  simp only [isSpace, Bool.or_eq_false_iff, Bool.and_eq_false_iff,
    decide_eq_false_iff_not]
  omega

theorem goodChar_ne_comma (ch : Char) (hg : goodChar ch) : ch ≠ ',' :=
  goodChar_ne ch hg ',' (by decide) (by decide) (by decide)

theorem goodChar_ne_qc (ch : Char) (hg : goodChar ch) : ch ≠ qc :=
  goodChar_ne ch hg qc (by decide) (by decide) (by decide)

theorem goodChar_ne_nlc (ch : Char) (hg : goodChar ch) : ch ≠ nlc :=
  goodChar_ne ch hg nlc (by decide) (by decide) (by decide)

/-! ### Round-trip machinery: digit strings -/

theorem mapOpt_charToDec (ds : List Nat) (h : ds.all (fun d => d < 10) = true) :
    mapOpt charToDec (ds.map decDigitChar) = some ds := by
  induction ds with
  | nil => rfl
  | cons d ds ih =>
    simp only [List.all_cons, Bool.and_eq_true, decide_eq_true_eq] at h
    simp only [List.map_cons, mapOpt, charToDec_decDigitChar d h.1, ih h.2]
    rfl

theorem mapOpt_charToHex (ds : List Nat) (h : ds.all (fun d => d < 16) = true) :
    mapOpt charToHex (ds.map hexDigitChar) = some ds := by
  induction ds with
  | nil => rfl
  | cons d ds ih =>
    simp only [List.all_cons, Bool.and_eq_true, decide_eq_true_eq] at h
    simp only [List.map_cons, mapOpt, charToHex_hexDigitChar d h.1, ih h.2]
    rfl

theorem decStr_ne_nil (n : Nat) : decStr n ≠ [] := by
  unfold decStr
  intro h
  rw [List.map_eq_nil_iff, List.reverse_eq_nil_iff] at h
  exact digitsRev_ne_nil 10 n n h

theorem hexStr_ne_nil (n : Nat) : hexStr n ≠ [] := by
  unfold hexStr
  intro h
  rw [List.map_eq_nil_iff, List.reverse_eq_nil_iff] at h
  exact digitsRev_ne_nil 16 n n h

theorem parseDecByte_decStr (n : Nat) (h : n < 256) : parseDecByte (decStr n) = some n := by
  have hall : (digitsRev 10 (n + 1) n).all (fun d => d < 10) = true :=
    digitsRev_all_lt 10 (by omega) (n + 1) n
  have hallrev : ((digitsRev 10 (n + 1) n).reverse).all (fun d => d < 10) = true := by
    rw [List.all_eq_true] at *
    intro d hd
    exact hall d (List.mem_reverse.mp hd)
  have hval : valBE 10 ((digitsRev 10 (n + 1) n).reverse) = n := by
    rw [valBE_reverse]
    exact valLE_digitsRev 10 (by omega) (n + 1) n (n_lt_pow_fuel 10 n (by omega))
  cases e : (digitsRev 10 (n + 1) n).reverse with
  | nil => exact absurd (List.reverse_eq_nil_iff.mp e) (digitsRev_ne_nil 10 n n)
  | cons d ds =>
    rw [e] at hallrev hval
    have hm := mapOpt_charToDec (d :: ds) hallrev
    unfold decStr
    rw [e]
    show (match mapOpt charToDec ((d :: ds).map decDigitChar) with
      | none => none
      | some ds => if valBE 10 ds ≤ 255 then some (valBE 10 ds) else none) = some n
    rw [hm]
    show (if valBE 10 (d :: ds) ≤ 255 then some (valBE 10 (d :: ds)) else none) = some n
    rw [hval, if_pos (by omega)]

theorem parseHexGroup_hexStr (n : Nat) (h : n < 65536) : parseHexGroup (hexStr n) = some n := by
  have hall : (digitsRev 16 (n + 1) n).all (fun d => d < 16) = true :=
    digitsRev_all_lt 16 (by omega) (n + 1) n
  have hallrev : ((digitsRev 16 (n + 1) n).reverse).all (fun d => d < 16) = true := by
    rw [List.all_eq_true] at *
    intro d hd
    exact hall d (List.mem_reverse.mp hd)
  have hval : valBE 16 ((digitsRev 16 (n + 1) n).reverse) = n := by
    rw [valBE_reverse]
    exact valLE_digitsRev 16 (by omega) (n + 1) n (n_lt_pow_fuel 16 n (by omega))
  cases e : (digitsRev 16 (n + 1) n).reverse with
  | nil => exact absurd (List.reverse_eq_nil_iff.mp e) (digitsRev_ne_nil 16 n n)
  | cons d ds =>
    rw [e] at hallrev hval
    have hm := mapOpt_charToHex (d :: ds) hallrev
    unfold hexStr
    rw [e]
    show (match mapOpt charToHex ((d :: ds).map hexDigitChar) with
      | none => none
      | some ds => if valBE 16 ds ≤ 65535 then some (valBE 16 ds) else none) = some n
    rw [hm]
    show (if valBE 16 (d :: ds) ≤ 65535 then some (valBE 16 (d :: ds)) else none) = some n
    rw [hval, if_pos (by omega)]

theorem decStr_chars (n : Nat) : ∀ ch ∈ decStr n, goodChar ch := by
  intro ch hch
  unfold decStr at hch
  rw [List.mem_map] at hch
  obtain ⟨d, hd, rfl⟩ := hch
  have hall := digitsRev_all_lt 10 (by omega) (n + 1) n
  rw [List.all_eq_true] at hall
  have hd10 : d < 10 := by simpa using hall d (List.mem_reverse.mp hd)
  exact Or.inl (decDigitChar_isHex d hd10)

theorem hexStr_chars (n : Nat) : ∀ ch ∈ hexStr n, goodChar ch := by
  intro ch hch
  unfold hexStr at hch
  rw [List.mem_map] at hch
  obtain ⟨d, hd, rfl⟩ := hch
  have hall := digitsRev_all_lt 16 (by omega) (n + 1) n
  rw [List.all_eq_true] at hall
  have hd16 : d < 16 := by simpa using hall d (List.mem_reverse.mp hd)
  exact Or.inl (hexDigitChar_isHex d hd16)

/-! ### Round-trip machinery: split and join -/

theorem splitOnChar_ne_nil (c : Char) : ∀ s : Str, splitOnChar c s ≠ [] := by
  intro s
  cases s with
  | nil => simp [splitOnChar]
  | cons x xs =>
    by_cases h : x = c
    · simp [splitOnChar, h]
    · simp [splitOnChar, h]

theorem splitOnChar_no_sep (c : Char) :
    ∀ t : Str, c ∉ t → splitOnChar c t = [t] := by
  intro t
  induction t with
  | nil => intro _; rfl
  | cons x xs ih =>
    intro h
    have hx : x ≠ c := fun e => h (e ▸ List.mem_cons_self x xs)
    have hxs : c ∉ xs := fun e => h (List.mem_cons_of_mem x e)
    simp only [splitOnChar, if_neg hx, ih hxs]
    rfl

theorem splitOnChar_prepend (c : Char) (r : Str) :
    ∀ t : Str, c ∉ t → splitOnChar c (t ++ c :: r) = t :: splitOnChar c r := by
  intro t
  induction t with
  | nil => simp [splitOnChar]
  | cons x xs ih =>
    intro h
    have hx : x ≠ c := fun e => h (e ▸ List.mem_cons_self x xs)
    have hxs : c ∉ xs := fun e => h (List.mem_cons_of_mem x e)
    simp only [List.cons_append, splitOnChar, if_neg hx, List.append_eq, ih hxs]
    rfl

theorem splitOnChar_joinWith (c : Char) :
    ∀ ts : List Str, ts ≠ [] → (∀ t ∈ ts, c ∉ t) →
      splitOnChar c (joinWith c ts) = ts := by
  intro ts
  induction ts with
  | nil => intro h; exact absurd rfl h
  | cons t ts ih =>
    intro _ hall
    cases ts with
    | nil =>
      exact splitOnChar_no_sep c t (hall t (List.mem_cons_self t []))
    | cons t2 ts2 =>
      show splitOnChar c (t ++ c :: joinWith c (t2 :: ts2)) = t :: t2 :: ts2
      rw [splitOnChar_prepend c _ t (hall t (List.mem_cons_self t _))]
      rw [ih (by simp) (fun x hx => hall x (List.mem_cons_of_mem t hx))]

theorem joinWith_chars (c : Char) :
    ∀ ts : List Str, ∀ ch ∈ joinWith c ts, ch = c ∨ ∃ t ∈ ts, ch ∈ t := by
  intro ts
  induction ts with
  | nil => intro ch hch; exact absurd hch (List.not_mem_nil ch)
  | cons t ts ih =>
    intro ch hch
    cases ts with
    | nil =>
      right
      exact ⟨t, List.mem_cons_self t [], hch⟩
    | cons t2 ts2 =>
      rw [show joinWith c (t :: t2 :: ts2) = t ++ c :: joinWith c (t2 :: ts2) from rfl,
        List.mem_append] at hch
      rcases hch with h | h
      · exact Or.inr ⟨t, List.mem_cons_self t _, h⟩
      · rcases List.mem_cons.mp h with rfl | h
        · exact Or.inl rfl
        · rcases ih ch h with h2 | ⟨t3, ht3, hch3⟩
          · exact Or.inl h2
          · exact Or.inr ⟨t3, List.mem_cons_of_mem t ht3, hch3⟩

theorem joinWith_ne_nil (c : Char) (t : Str) (ts : List Str) (h : t ≠ []) :
    joinWith c (t :: ts) ≠ [] := by
  cases ts with
  | nil => exact h
  | cons t2 ts2 =>
    show t ++ c :: joinWith c (t2 :: ts2) ≠ []
    simp

theorem dropWhile_no_space (s : Str) (h : ∀ ch ∈ s, isSpace ch = false) :
    s.dropWhile isSpace = s := by
  cases s with
  | nil => rfl
  | cons x xs =>
    rw [List.dropWhile_cons, h x (List.mem_cons_self x xs)]
    simp

theorem trimSpace_no_space (s : Str) (h : ∀ ch ∈ s, isSpace ch = false) :
    trimSpace s = s := by
  unfold trimSpace
  rw [dropWhile_no_space s h]
  rw [dropWhile_no_space s.reverse (fun ch hch => h ch (List.mem_reverse.mp hch))]
  exact List.reverse_reverse s

/-! ### Round-trip machinery: byte groups and list shapes -/

theorem group2_length : ∀ l : List Nat, (group2 l).length = l.length / 2
  | [] => rfl
  | [_] => by simp [group2]
  | _ :: _ :: r => by
    show (group2 r).length + 1 = (r.length + 1 + 1) / 2
    rw [group2_length r]
    omega

theorem group2_bound : ∀ l : List Nat, l.all (fun x => x < 256) = true →
    (group2 l).all (fun g => g < 65536) = true
  | [], _ => rfl
  | [_], _ => rfl
  | a :: b :: r, h => by
    simp only [List.all_cons, Bool.and_eq_true, decide_eq_true_eq] at h
    simp only [group2, List.all_cons, Bool.and_eq_true, decide_eq_true_eq]
    exact ⟨by omega, group2_bound r h.2.2⟩

theorem ungroup2_group2 : ∀ l : List Nat, l.all (fun x => x < 256) = true →
    l.length % 2 = 0 → ungroup2 (group2 l) = l
  | [], _, _ => rfl
  | [_], _, hl => by simp at hl
  | a :: b :: r, h, hl => by
    simp only [List.all_cons, Bool.and_eq_true, decide_eq_true_eq] at h
    simp only [List.length_cons] at hl
    show (a * 256 + b) / 256 :: (a * 256 + b) % 256 :: ungroup2 (group2 r) = a :: b :: r
    have h1 : (a * 256 + b) / 256 = a := by omega
    have h2 : (a * 256 + b) % 256 = b := by omega
    rw [h1, h2, ungroup2_group2 r h.2.2 (by omega)]

theorem len4_destruct (l : List Nat) (h : l.length = 4) :
    ∃ a b c d, l = [a, b, c, d] := by
  rcases l with _ | ⟨a, l⟩
  · simp only [List.length_nil] at h; omega
  rcases l with _ | ⟨b, l⟩
  · simp only [List.length_cons, List.length_nil] at h; omega
  rcases l with _ | ⟨c, l⟩
  · simp only [List.length_cons, List.length_nil] at h; omega
  rcases l with _ | ⟨d, l⟩
  · simp only [List.length_cons, List.length_nil] at h; omega
  rcases l with _ | ⟨e, l⟩
  · exact ⟨a, b, c, d, rfl⟩
  · simp only [List.length_cons] at h; omega

theorem len2_destruct (l : List Nat) (h : 2 ≤ l.length) :
    ∃ g0 g1 rest, l = g0 :: g1 :: rest := by
  rcases l with _ | ⟨g0, l⟩
  · simp only [List.length_nil] at h; omega
  rcases l with _ | ⟨g1, l⟩
  · simp only [List.length_cons, List.length_nil] at h; omega
  exact ⟨g0, g1, l, rfl⟩

/-! ### Round-trip machinery: the canonical-form pair -/

theorem hex_ne_dot (ch : Char) (h : (charToHex ch).isSome = true) : ch ≠ '.' := by
  rintro rfl
  exact absurd h (by decide)

theorem hex_ne_colon (ch : Char) (h : (charToHex ch).isSome = true) : ch ≠ ':' := by
  rintro rfl
  exact absurd h (by decide)

theorem decStr_hex (n : Nat) : ∀ ch ∈ decStr n, (charToHex ch).isSome = true := by
  intro ch hch
  unfold decStr at hch
  rw [List.mem_map] at hch
  obtain ⟨d, hd, rfl⟩ := hch
  have hall := digitsRev_all_lt 10 (by omega) (n + 1) n
  rw [List.all_eq_true] at hall
  have hd10 : d < 10 := by simpa using hall d (List.mem_reverse.mp hd)
  exact decDigitChar_isHex d hd10

theorem hexStr_hex (n : Nat) : ∀ ch ∈ hexStr n, (charToHex ch).isSome = true := by
  intro ch hch
  unfold hexStr at hch
  rw [List.mem_map] at hch
  obtain ⟨d, hd, rfl⟩ := hch
  have hall := digitsRev_all_lt 16 (by omega) (n + 1) n
  rw [List.all_eq_true] at hall
  have hd16 : d < 16 := by simpa using hall d (List.mem_reverse.mp hd)
  exact hexDigitChar_isHex d hd16

theorem v4orv6_hex_pre (c : Char) (r : Str) :
    ∀ t : Str, (∀ ch ∈ t, (charToHex ch).isSome = true) →
      v4orv6 (t ++ c :: r) = v4orv6 (c :: r) := by
  intro t
  induction t with
  | nil => intro _; rfl
  | cons x xs ih =>
    intro h
    have hx := h x (List.mem_cons_self x xs)
    show v4orv6 (x :: (xs ++ c :: r)) = v4orv6 (c :: r)
    unfold v4orv6
    rw [if_neg (hex_ne_dot x hx), if_neg (hex_ne_colon x hx)]
    exact ih (fun ch hch => h ch (List.mem_cons_of_mem x hch))

theorem mapOpt_parseHexGroup (gs : List Nat) (h : gs.all (fun g => g < 65536) = true) :
    mapOpt parseHexGroup (gs.map hexStr) = some gs := by
  induction gs with
  | nil => rfl
  | cons g gs ih =>
    simp only [List.all_cons, Bool.and_eq_true, decide_eq_true_eq] at h
    simp only [List.map_cons, mapOpt, parseHexGroup_hexStr g h.1, ih h.2]
    rfl

theorem parseIP_dq (a b c d : Nat) (ha : a < 256) (hb : b < 256) (hc : c < 256)
    (hd : d < 256) : parseIP (dqStr a b c d) = some (v4InV6 ++ [a, b, c, d]) := by
  have hv : v4orv6 (dqStr a b c d) = some true := by
    show v4orv6 (decStr a ++ '.' :: joinWith '.' [decStr b, decStr c, decStr d]) = some true
    rw [v4orv6_hex_pre _ _ _ (decStr_hex a)]
    simp [v4orv6]
  have hnodot : ∀ t ∈ [decStr a, decStr b, decStr c, decStr d], '.' ∉ t := by
    intro t ht hch
    simp only [List.mem_cons, List.not_mem_nil, or_false] at ht
    have : (charToHex '.').isSome = true := by
      rcases ht with rfl | rfl | rfl | rfl
      · exact decStr_hex a '.' hch
      · exact decStr_hex b '.' hch
      · exact decStr_hex c '.' hch
      · exact decStr_hex d '.' hch
    exact absurd this (by decide)
  have hsplit : splitOnChar '.' (dqStr a b c d) = [decStr a, decStr b, decStr c, decStr d] :=
    splitOnChar_joinWith '.' _ (by simp) hnodot
  have hmap : mapOpt parseDecByte [decStr a, decStr b, decStr c, decStr d]
      = some [a, b, c, d] := by
    simp [mapOpt, parseDecByte_decStr a ha, parseDecByte_decStr b hb,
      parseDecByte_decStr c hc, parseDecByte_decStr d hd]
  unfold parseIP
  rw [hv]
  unfold parseV4
  rw [hsplit, hmap]
  rfl

theorem ipString_v6 (ip : IP) (hlen : ip.length = 16) (hto4 : to4 ip = none)
    (hne : ip ≠ []) : ipString ip = joinWith ':' ((group2 ip).map hexStr) := by
  unfold ipString
  rw [if_neg hne, hto4]
  show (if ip.length = 16 then joinWith ':' ((group2 ip).map hexStr)
    else '?' :: bytesHex ip) = _
  rw [if_pos hlen]

/-- The canonical-form pair inverts: parsing the canonical string of a
valid address yields its 16-byte normal form, whose canonical string
is the same; the normal form is again valid and well formed.  This is
the property `LoadBasic`/`UnmarshalJSON` rely on to reconstruct the
entries that `DumpBasic`/`MarshalJSON` wrote. -/
theorem parse_print (ip : IP) (hv : validIP ip = true) (hw : ipWF ip = true) :
    parseIP (ipString ip) = some (canon16 ip)
    ∧ ipString (canon16 ip) = ipString ip
    ∧ validIP (canon16 ip) = true ∧ ipWF (canon16 ip) = true := by
  have hlen : ip.length = 4 ∨ ip.length = 16 := by simpa [validIP] using hv
  rcases hlen with h4 | h16
  · obtain ⟨a, b, c, d, rfl⟩ := len4_destruct ip h4
    have hw' : a < 256 ∧ b < 256 ∧ c < 256 ∧ d < 256 := by simpa [ipWF] using hw
    obtain ⟨ha, hb, hc, hd⟩ := hw'
    refine ⟨?_, rfl, rfl, ?_⟩
    · exact parseIP_dq a b c d ha hb hc hd
    · show ipWF (v4InV6 ++ [a, b, c, d]) = true
      simp [ipWF, v4InV6]
      omega
  · by_cases hmap : ip.take 12 = v4InV6
    · have e : ip = v4InV6 ++ ip.drop 12 := by
        conv_lhs => rw [← List.take_append_drop 12 ip]
        rw [hmap]
      have hdlen : (ip.drop 12).length = 4 := by rw [List.length_drop, h16]
      obtain ⟨a, b, c, d, hd4⟩ := len4_destruct _ hdlen
      rw [hd4] at e
      subst e
      have hw' : a < 256 ∧ b < 256 ∧ c < 256 ∧ d < 256 := by simpa [ipWF, v4InV6] using hw
      obtain ⟨ha, hb, hc, hd⟩ := hw'
      exact ⟨parseIP_dq a b c d ha hb hc hd, rfl, hv, hw⟩
    · have hne : ip ≠ [] := by
        intro e
        rw [e] at h16
        simp at h16
      have hto4 : to4 ip = none := by
        unfold to4
        rw [if_neg (by omega), if_neg (fun hpair => hmap hpair.2)]
      have hs : ipString ip = joinWith ':' ((group2 ip).map hexStr) :=
        ipString_v6 ip h16 hto4 hne
      have hglen : (group2 ip).length = 8 := by rw [group2_length, h16]
      obtain ⟨g0, g1, rest, hg⟩ := len2_destruct (group2 ip) (by omega)
      have hgb : (group2 ip).all (fun g => g < 65536) = true :=
        group2_bound ip (by simpa [ipWF] using hw)
      have hvv : v4orv6 (joinWith ':' ((group2 ip).map hexStr)) = some false := by
        rw [hg]
        show v4orv6 (hexStr g0 ++ ':' :: joinWith ':' ((g1 :: rest).map hexStr)) = some false
        rw [v4orv6_hex_pre _ _ _ (hexStr_hex g0)]
        simp [v4orv6]
      have hnocolon : ∀ t ∈ (group2 ip).map hexStr, ':' ∉ t := by
        intro t ht hch
        rw [List.mem_map] at ht
        obtain ⟨g, _, rfl⟩ := ht
        exact absurd (hexStr_hex g ':' hch) (by decide)
      have hsplit : splitOnChar ':' (joinWith ':' ((group2 ip).map hexStr))
          = (group2 ip).map hexStr :=
        splitOnChar_joinWith ':' _ (by rw [hg]; simp) hnocolon
      have hmapo : mapOpt parseHexGroup ((group2 ip).map hexStr) = some (group2 ip) :=
        mapOpt_parseHexGroup _ hgb
      have hparse : parseIP (ipString ip) = some ip := by
        rw [hs]
        unfold parseIP
        rw [hvv]
        unfold parseV6
        rw [hsplit, hmapo]
        show (if (group2 ip).length = 8 then some (ungroup2 (group2 ip)) else none) = some ip
        rw [if_pos hglen, ungroup2_group2 ip (by simpa [ipWF] using hw) (by omega)]
      have hcan : canon16 ip = ip := by
        unfold canon16
        rw [hto4]
      rw [hcan]
      exact ⟨hparse, rfl, hv, hw⟩

theorem dqStr_chars (a b c d : Nat) : ∀ ch ∈ dqStr a b c d, goodChar ch := by
  intro ch hch
  rcases joinWith_chars '.' _ ch hch with rfl | ⟨t, ht, hcht⟩
  · exact Or.inr (Or.inl rfl)
  · simp only [List.mem_cons, List.not_mem_nil, or_false] at ht
    rcases ht with rfl | rfl | rfl | rfl <;> exact Or.inl (decStr_hex _ ch hcht)

theorem dqStr_ne_nil (a b c d : Nat) : dqStr a b c d ≠ [] :=
  joinWith_ne_nil '.' (decStr a) _ (decStr_ne_nil a)

/-- Every character of the canonical string of a valid address is a
hex digit, a dot or a colon, and the string is non-empty.  Hence keys
contain no comma, no newline, no white space and no quote. -/
theorem ipString_shape (ip : IP) (hv : validIP ip = true) :
    (∀ ch ∈ ipString ip, goodChar ch) ∧ ipString ip ≠ [] := by
  have hlen : ip.length = 4 ∨ ip.length = 16 := by simpa [validIP] using hv
  rcases hlen with h4 | h16
  · obtain ⟨a, b, c, d, rfl⟩ := len4_destruct ip h4
    exact ⟨dqStr_chars a b c d, dqStr_ne_nil a b c d⟩
  · by_cases hmap : ip.take 12 = v4InV6
    · have e : ip = v4InV6 ++ ip.drop 12 := by
        conv_lhs => rw [← List.take_append_drop 12 ip]
        rw [hmap]
      have hdlen : (ip.drop 12).length = 4 := by rw [List.length_drop, h16]
      obtain ⟨a, b, c, d, hd4⟩ := len4_destruct _ hdlen
      rw [hd4] at e
      subst e
      exact ⟨dqStr_chars a b c d, dqStr_ne_nil a b c d⟩
    · have hne : ip ≠ [] := by
        intro e
        rw [e] at h16
        simp at h16
      have hto4 : to4 ip = none := by
        unfold to4
        rw [if_neg (by omega), if_neg (fun hpair => hmap hpair.2)]
      have hs : ipString ip = joinWith ':' ((group2 ip).map hexStr) :=
        ipString_v6 ip h16 hto4 hne
      have hglen : (group2 ip).length = 8 := by rw [group2_length, h16]
      obtain ⟨g0, g1, rest, hg⟩ := len2_destruct (group2 ip) (by omega)
      constructor
      · intro ch hch
        rw [hs] at hch
        rcases joinWith_chars ':' _ ch hch with rfl | ⟨t, ht, hcht⟩
        · exact Or.inr (Or.inr rfl)
        · rw [List.mem_map] at ht
          obtain ⟨g, _, rfl⟩ := ht
          exact Or.inl (hexStr_hex g ch hcht)
      · rw [hs, hg]
        show joinWith ':' (hexStr g0 :: (g1 :: rest).map hexStr) ≠ []
        exact joinWith_ne_nil ':' (hexStr g0) _ (hexStr_ne_nil g0)

/-- Bundle of key facts used by the serialization proofs. -/
theorem key_facts (ip : IP) (hv : validIP ip = true) :
    trimSpace (ipString ip) = ipString ip
    ∧ ',' ∉ ipString ip ∧ nlc ∉ ipString ip ∧ ipString ip ≠ [] := by
  obtain ⟨hchars, hne⟩ := ipString_shape ip hv
  refine ⟨trimSpace_no_space _ (fun ch hch => goodChar_not_space ch (hchars ch hch)),
    ?_, ?_, hne⟩
  · intro hc
    exact goodChar_ne_comma ',' (hchars ',' hc) rfl
  · intro hc
    exact goodChar_ne_nlc nlc (hchars nlc hc) rfl

/-! ### Shape of lists built by `Add` -/

theorem foldl_add_mem_src : ∀ (ips : List IP) (acc : List Str) (k : Str),
    k ∈ ips.foldl basicAdd acc →
    k ∈ acc ∨ ∃ ip, ip ∈ ips ∧ validIP ip = true ∧ k = ipString ip := by
  intro ips
  induction ips with
  | nil => intro acc k hk; exact Or.inl hk
  | cons ip ips ih =>
    intro acc k hk
    rcases ih (basicAdd acc ip) k hk with h2 | ⟨ip', hm, hvv, hk'⟩
    · unfold basicAdd at h2
      by_cases hvip : validIP ip = true
      · rw [if_pos hvip] at h2
        rcases (mem_mapInsert acc (ipString ip) k).mp h2 with h3 | h3
        · exact Or.inl h3
        · exact Or.inr ⟨ip, List.mem_cons_self ip ips, hvip, h3⟩
      · rw [if_neg hvip] at h2
        exact Or.inl h2
    · exact Or.inr ⟨ip', List.mem_cons_of_mem ip hm, hvv, hk'⟩

theorem foldl_add_mem_mono : ∀ (ips : List IP) (acc : List Str) (k : Str),
    k ∈ acc → k ∈ ips.foldl basicAdd acc := by
  intro ips
  induction ips with
  | nil => intro acc k hk; exact hk
  | cons ip ips ih =>
    intro acc k hk
    apply ih
    unfold basicAdd
    by_cases hvip : validIP ip = true
    · rw [if_pos hvip]
      exact (mem_mapInsert acc (ipString ip) k).mpr (Or.inl hk)
    · rw [if_neg hvip]
      exact hk

theorem mapInsert_nodup (l : List Str) (k : Str) (h : l.Nodup) : (mapInsert l k).Nodup := by
  unfold mapInsert
  by_cases hm : memStr k l = true
  · rw [if_pos hm]
    exact h
  · rw [if_neg hm]
    have hk : k ∉ l := fun hk => hm ((memStr_iff k l).mpr hk)
    simp [List.nodup_append, h, hk]

theorem foldl_add_nodup : ∀ (ips : List IP) (acc : List Str),
    acc.Nodup → (ips.foldl basicAdd acc).Nodup := by
  intro ips
  induction ips with
  | nil => intro acc h; exact h
  | cons ip ips ih =>
    intro acc h
    apply ih
    unfold basicAdd
    by_cases hvip : validIP ip = true
    · rw [if_pos hvip]
      exact mapInsert_nodup acc (ipString ip) h
    · rw [if_neg hvip]
      exact h

theorem buildBasic_ne_nil (ip0 : IP) (ips : List IP) (h : validIP ip0 = true) :
    buildBasic (ip0 :: ips) ≠ [] := by
  have hmem : ipString ip0 ∈ buildBasic (ip0 :: ips) := by
    show ipString ip0 ∈ ips.foldl basicAdd (basicAdd [] ip0)
    apply foldl_add_mem_mono
    unfold basicAdd
    rw [if_pos h]
    simp [mapInsert, memStr]
  intro e
  rw [e] at hmem
  exact List.not_mem_nil _ hmem

theorem sortIns_mem (x k : Str) : ∀ l : List Str, k ∈ sortIns x l ↔ k = x ∨ k ∈ l := by
  intro l
  induction l with
  | nil => simp [sortIns]
  | cons y ys ih =>
    unfold sortIns
    by_cases h : lexLe x y = true
    · rw [if_pos h]
      simp
    · rw [if_neg h]
      simp only [List.mem_cons, ih]
      tauto

theorem sortStrs_mem (k : Str) : ∀ l : List Str, k ∈ sortStrs l ↔ k ∈ l := by
  intro l
  induction l with
  | nil => exact Iff.rfl
  | cons x xs ih =>
    unfold sortStrs
    rw [sortIns_mem, ih]
    simp

/-! ### The round-trip theorems -/

theorem basicUMGo_canonical : ∀ (ts acc : List Str),
    (∀ t ∈ ts, t ≠ [] ∧ trimSpace t = t ∧ (parseIP t).isSome = true) →
    ts.Nodup → (∀ t ∈ ts, t ∉ acc) →
    basicUMGo ts acc = .ok (some (acc ++ ts)) := by
  intro ts
  induction ts with
  | nil => intro acc _ _ _; simp [basicUMGo]
  | cons t ts ih =>
    intro acc hts hnd hdisj
    obtain ⟨hne, htrim, hp⟩ := hts t (List.mem_cons_self t ts)
    show (if trimSpace t = [] then basicUMGo ts acc
      else
        match parseIP (trimSpace t) with
        | none => .errored none
        | some _ => basicUMGo ts (mapInsert acc (trimSpace t)))
      = GoRes.ok (some (acc ++ t :: ts))
    rw [htrim, if_neg hne]
    cases e : parseIP t with
    | none => rw [e] at hp; simp at hp
    | some ip =>
      have hnotin : t ∉ acc := hdisj t (List.mem_cons_self t ts)
      have hmi : mapInsert acc t = acc ++ [t] := by
        unfold mapInsert
        rw [if_neg (fun hm => hnotin ((memStr_iff t acc).mp hm))]
      rw [hmi]
      simp only [List.nodup_cons] at hnd
      have hrec := ih (acc ++ [t])
        (fun x hx => hts x (List.mem_cons_of_mem t hx)) hnd.2
        (by
          intro x hx hxin
          rcases List.mem_append.mp hxin with h | h
          · exact hdisj x (List.mem_cons_of_mem t hx) h
          · rw [List.mem_singleton] at h
            subst h
            exact hnd.1 hx)
      rw [hrec]
      simp

theorem loadGo_canonical : ∀ (ts acc : List Str),
    (∀ t ∈ ts, ∃ ip, validIP ip = true ∧ ipWF ip = true ∧ t = ipString ip) →
    ∃ l, loadGo ts acc = some l ∧ ∀ x, x ∈ l ↔ x ∈ acc ∨ x ∈ ts := by
  intro ts
  induction ts with
  | nil =>
    intro acc _
    exact ⟨acc, rfl, fun x => by simp⟩
  | cons t ts ih =>
    intro acc hts
    obtain ⟨ip, hv, hw, rfl⟩ := hts t (List.mem_cons_self t ts)
    have pp := parse_print ip hv hw
    have hadd : basicAdd acc (canon16 ip) = mapInsert acc (ipString ip) := by
      unfold basicAdd
      rw [if_pos pp.2.2.1, pp.2.1]
    obtain ⟨l, hl, hmem⟩ := ih (mapInsert acc (ipString ip))
      (fun x hx => hts x (List.mem_cons_of_mem _ hx))
    refine ⟨l, ?_, ?_⟩
    · show (match parseIP (ipString ip) with
        | none => none
        | some ip2 => loadGo ts (basicAdd acc ip2)) = some l
      rw [pp.1]
      show loadGo ts (basicAdd acc (canon16 ip)) = some l
      rw [hadd, hl]
    · intro x
      rw [hmem x, mem_mapInsert]
      simp only [List.mem_cons]
      tauto

/-- C1 counterexample: the empty host list dump-form round trip fails.
`DumpBasic` of the empty list is the empty byte slice, and `LoadBasic`
rejects it (`ParseIP` fails on the empty line), returning an error
instead of an empty list. -/
theorem empty_dump_roundtrip_fails :
    loadBasic (dumpBasic (buildBasic [])) = none := by
  decide

/-- C1 (amended): for every host list built by a finite sequence of
`Add` calls with valid addresses, the compact JSON round trip
(`MarshalJSON` then `UnmarshalJSON`) reproduces the exact key set —
hence identical membership — including for the empty sequence; the
dump round trip (`DumpBasic` then `LoadBasic`) yields a list with the
same membership for every address whenever the sequence is non-empty,
while for the empty list it fails with an error (`LoadBasic` rejects
the empty dump). -/
theorem roundtrip_membership (ips : List IP)
    (h : ∀ ip ∈ ips, validIP ip = true ∧ ipWF ip = true) :
    (∀ st, basicUnmarshalJSON st (basicMarshalJSON (buildBasic ips)) = .ok (some (buildBasic ips)))
    ∧ (ips ≠ [] → ∃ l, loadBasic (dumpBasic (buildBasic ips)) = some l
        ∧ ∀ a, basicPermitted l a = basicPermitted (buildBasic ips) a) := by
  have hsrc : ∀ k ∈ buildBasic ips, ∃ ip, validIP ip = true ∧ ipWF ip = true ∧ k = ipString ip := by
    intro k hk
    rcases foldl_add_mem_src ips [] k hk with h0 | ⟨ip, hmem, hvv, hk'⟩
    · exact absurd h0 (List.not_mem_nil k)
    · exact ⟨ip, hvv, (h ip hmem).2, hk'⟩
  have hnodup : (buildBasic ips).Nodup := foldl_add_nodup ips [] List.nodup_nil
  have hkeyfacts : ∀ k ∈ buildBasic ips,
      trimSpace k = k ∧ ',' ∉ k ∧ nlc ∉ k ∧ k ≠ [] := by
    intro k hk
    obtain ⟨ip, hv2, _, rfl⟩ := hsrc k hk
    exact key_facts ip hv2
  have hjoin_nospace : ∀ ch ∈ joinWith ',' (buildBasic ips), isSpace ch = false := by
    intro ch hch
    rcases joinWith_chars ',' _ ch hch with rfl | ⟨t, ht, hcht⟩
    · decide
    · obtain ⟨ip, hv2, _, rfl⟩ := hsrc t ht
      exact goodChar_not_space ch ((ipString_shape ip hv2).1 ch hcht)
  constructor
  · intro st
    show (if qc = qc ∧ (qc :: (joinWith ',' (buildBasic ips) ++ [qc])).getLast? = some qc then
        if joinWith ',' (buildBasic ips) ++ [qc] = [] then GoRes.panicked
        else basicUMGo (splitOnChar ','
          (trimSpace (joinWith ',' (buildBasic ips) ++ [qc]).dropLast)) []
      else .errored st) = GoRes.ok (some (buildBasic ips))
    have hlast : (qc :: (joinWith ',' (buildBasic ips) ++ [qc])).getLast? = some qc := by
      rw [show qc :: (joinWith ',' (buildBasic ips) ++ [qc])
        = (qc :: joinWith ',' (buildBasic ips)) ++ [qc] from rfl]
      exact List.getLast?_concat _
    rw [if_pos ⟨rfl, hlast⟩, if_neg (by simp), List.dropLast_concat,
      trimSpace_no_space _ hjoin_nospace]
    cases hb : buildBasic ips with
    | nil => decide
    | cons k keys =>
      rw [← hb, splitOnChar_joinWith ',' (buildBasic ips) (by rw [hb]; simp)
        (fun t ht => (hkeyfacts t ht).2.1)]
      rw [basicUMGo_canonical (buildBasic ips) []
        (fun t ht => by
          obtain ⟨ip, hv2, hw2, rfl⟩ := hsrc t ht
          have pp := parse_print ip hv2 hw2
          exact ⟨(key_facts ip hv2).2.2.2, (key_facts ip hv2).1, by rw [pp.1]; rfl⟩)
        hnodup (fun t _ ht => List.not_mem_nil t ht)]
      simp
  · intro hne
    have hkeys_ne : buildBasic ips ≠ [] := by
      cases ips with
      | nil => exact absurd rfl hne
      | cons ip0 ips2 =>
        exact buildBasic_ne_nil ip0 ips2 (h ip0 (List.mem_cons_self ip0 ips2)).1
    have hsorted_src : ∀ t ∈ sortStrs (buildBasic ips),
        ∃ ip, validIP ip = true ∧ ipWF ip = true ∧ t = ipString ip :=
      fun t ht => hsrc t ((sortStrs_mem t _).mp ht)
    have hsorted_ne : sortStrs (buildBasic ips) ≠ [] := by
      obtain ⟨k, keys, hb⟩ : ∃ k keys, buildBasic ips = k :: keys := by
        cases hbb : buildBasic ips with
        | nil => exact absurd hbb hkeys_ne
        | cons k keys => exact ⟨k, keys, rfl⟩
      intro e
      have hk : k ∈ sortStrs (buildBasic ips) := by
        rw [sortStrs_mem, hb]
        exact List.mem_cons_self k keys
      rw [e] at hk
      exact List.not_mem_nil k hk
    have hsplit : splitOnChar nlc (joinWith nlc (sortStrs (buildBasic ips)))
        = sortStrs (buildBasic ips) :=
      splitOnChar_joinWith nlc _ hsorted_ne
        (fun t ht => (hkeyfacts t ((sortStrs_mem t _).mp ht)).2.2.1)
    obtain ⟨l, hl, hmem⟩ := loadGo_canonical (sortStrs (buildBasic ips)) [] hsorted_src
    refine ⟨l, ?_, ?_⟩
    · show loadGo (splitOnChar nlc (joinWith nlc (sortStrs (buildBasic ips)))) [] = some l
      rw [hsplit, hl]
    · intro a
      unfold basicPermitted
      have hms : memStr (ipString a) l = memStr (ipString a) (buildBasic ips) := by
        apply bool_of_iff
        rw [memStr_iff, memStr_iff, hmem, sortStrs_mem]
        simp
      rw [hms]

/-- C1 witness: the one-address list `[127.0.0.1]` round-trips in both
forms. -/
theorem roundtrip_membership_witness :
    basicUnmarshalJSON none (basicMarshalJSON (buildBasic [[127, 0, 0, 1]]))
      = .ok (some (buildBasic [[127, 0, 0, 1]]))
    ∧ ∃ l, loadBasic (dumpBasic (buildBasic [[127, 0, 0, 1]])) = some l
        ∧ ∀ a, basicPermitted l a = basicPermitted (buildBasic [[127, 0, 0, 1]]) a := by
  have h := roundtrip_membership [[127, 0, 0, 1]] (by decide)
  exact ⟨h.1 none, h.2 (by decide)⟩
